import Mathlib

/-!
Verification of the chesster rhythm-analysis core against its
natural-language specification.

The Python source (src/chester/) is shallowly embedded below:
- score records (loosely-typed dicts `{"type": "cp"/"mate", ...}`) become an
  `Option ScoreRec`, where `none` stands for the empty dict `{}` (the callers
  normalise an absent record to `{}` via `or {}` before the call), and each
  field is an `Option` collapsing "key missing" and "value None", which the
  source treats identically through `score.get(k) or 0`;
- pure helpers (`_score_to_cp`, `_sign_bucket`, `_perplexity_segments`,
  `_is_forced_from_topmoves`, `chunked`) become Lean functions of the same
  shape;
- the chess library (board, UCI parsing, legality) is an external
  collaborator and is abstracted into oracle functions
  (`stepFn : fen → uci → Option fen` for PV replay, `turnOf`/`forcedOf`
  for the forced-frontier walk);
- the asyncio machinery of `async_map_progress` becomes a small-step
  task-lifecycle machine plus a deterministic fold over the completion
  order delivered by `asyncio.as_completed`.
-/

namespace Chesster

/-- Sentinel constant: mate treated as huge cp (100000) for "gap" purposes
(src/chester/rhythm_pipeline.py line 12). -/
def MATE_CP : Int := 100000

/-- A non-empty Python score dict. `type` is the `"type"` key; `mate` and
`cp` are the integer fields, with `none` covering both a missing key and an
explicit `None` value (the source reads them as `score.get(k) or 0`, which
maps both to 0). -/
structure ScoreRec where
  type : Option String
  mate : Option Int
  cp : Option Int
deriving DecidableEq, Repr

/-- A score record as received by `_score_to_cp`: `none` is the empty dict
`{}` (Python `not score` is true exactly on the empty dict here). -/
def Score : Type := Option ScoreRec

/-- Embedding of `_score_to_cp` (rhythm_pipeline.py lines 15-23). -/
def score_to_cp (score : Option ScoreRec) : Int :=
  match score with
  | none => 0
  | some s =>
    if s.type = some ("mate") then
      let m := s.mate.getD 0
      if m = 0 then MATE_CP
      else if m > 0 then MATE_CP else -MATE_CP
    else
      s.cp.getD 0

/-- Embedding of `_sign_bucket` (rhythm_pipeline.py lines 38-43). -/
def sign_bucket (cp : Int) : Int :=
  if cp > 0 then 1
  else if cp < 0 then -1
  else 0

/-- Carry-forward loop of `_perplexity_segments` (lines 54-61): replace each
zero by the last non-zero value seen so far (`last` starts at 0). -/
def carryGo : List Int → Int → List Int
  | [], _ => []
  | s :: rest, last =>
    if s = 0 then last :: carryGo rest last
    else s :: carryGo rest s

/-- Segment-counting loop of `_perplexity_segments` (lines 66-73): walk the
normalised signs with state `(seg, prev)`; skip zeros; bump `seg` when the
sign differs from `prev` (or `prev` is unset). -/
def segLoop : List Int → Nat → Option Int → Nat
  | [], seg, _ => seg
  | s :: rest, seg, prev =>
    if s = 0 then segLoop rest seg prev
    else if prev = some s then segLoop rest seg prev
    else segLoop rest (seg + 1) (some s)

/-- Embedding of `_perplexity_segments` (rhythm_pipeline.py lines 46-74). -/
def perplexity_segments (cps_by_depth : List Int) : Nat :=
  let signs := cps_by_depth.map sign_bucket
  let norm := carryGo signs 0
  if norm.all (· = 0) then 1
  else max 1 (segLoop norm 0 none)

/-- Count of maximal contiguous runs of equal values in a list
(sign changes + 1 on a non-empty list). -/
def runCount : List Int → Nat
  | [] => 0
  | a :: rest => runGo rest a 1
where
  runGo : List Int → Int → Nat → Nat
    | [], _, acc => acc
    | b :: rest, prev, acc =>
      if b = prev then runGo rest prev acc
      else runGo rest b (acc + 1)

/-- Reference algorithm of spec §4.4, written from the spec's words: map
scores to sign buckets, carry the most recent non-zero bucket forward over
zeros (leaving 0 if none seen yet), return 1 if the carried-forward sequence
is entirely zero, otherwise count maximal contiguous runs of equal non-zero
bucket value. -/
def perplexitySpecRef (cps_by_depth : List Int) : Nat :=
  let buckets := cps_by_depth.map sign_bucket
  let carried := carryGo buckets 0
  if carried.all (· = 0) then 1
  else runCount (carried.filter (· ≠ 0))

/-- Embedding of `_is_forced_from_topmoves` (rhythm_pipeline.py lines 77-82).
A top-move entry is `Option ScoreRec` after the source's
`(top_moves[i] or \x7b\x7d).get("score") or \x7b\x7d` normalisation chain:
`none` stands for any entry whose score record comes out empty. -/
def is_forced_from_topmoves (top_moves : List (Option ScoreRec)) : Bool :=
  if top_moves = [] ∨ top_moves.length < 2 then false
  else
    let cp1 := score_to_cp ((top_moves.get? 0).getD none)
    let cp2 := score_to_cp ((top_moves.get? 1).getD none)
    decide ((cp1 - cp2).natAbs ≥ 100)

/-- Embedding of `_collect_pv_fens` (rhythm_pipeline.py lines 101-113).
The chess library is an external collaborator: `stepFn b u` abstracts
"parse UCI string `u`, check legality on board `b`, push it", returning the
next position's FEN, with `none` covering both the unparseable-UCI exception
and the illegal-move check, which the source both turns into `break`. -/
def collect_pv_fens (stepFn : String → String → Option String)
    (root_fen : String) (pv_uci : List String) (max_plies : Nat) : List String :=
  root_fen :: collectGo stepFn root_fen (pv_uci.take max_plies)
where
  collectGo (stepFn : String → String → Option String) :
      String → List String → List String
    | _, [] => []
    | b, u :: rest =>
      match stepFn b u with
      | none => []
      | some b2 => b2 :: collectGo stepFn b2 rest

/-- Per-root walk of `_dist_to_forced_for_color` (rhythm_pipeline.py
lines 162-173): scan the PV positions; each time it is `color`'s turn, stop
with the current `moves_seen` if the position is forced, otherwise consume a
move and give up once `moves_seen` exceeds the cap. Returns `none` when the
loop falls through without finding a forced position. `turnOf` abstracts
`chess.Board(pf).turn` and `forcedOf` abstracts `forced_pv.get(pf, False)`
(so a position missing from the classification map reads as not forced). -/
def walkGo (turnOf forcedOf : String → Bool) (color : Bool) :
    List String → Nat → Nat → Option Nat
  | [], _, _ => none
  | pf :: rest, moves_seen, cap_moves =>
    if turnOf pf = color then
      if forcedOf pf then some moves_seen
      else if moves_seen + 1 > cap_moves then none
      else walkGo turnOf forcedOf color rest (moves_seen + 1) cap_moves
    else walkGo turnOf forcedOf color rest moves_seen cap_moves

/-- Embedding of the per-root body of `_dist_to_forced_for_color`
(rhythm_pipeline.py lines 159-177): walk the collected PV positions and
return `cap_moves` when the walk finds nothing (`found is None`). -/
def dist_to_forced (turnOf forcedOf : String → Bool)
    (pv_fens : List String) (color : Bool) (cap_moves : Nat) : Nat :=
  (walkGo turnOf forcedOf color pv_fens 0 cap_moves).getD cap_moves

/-- Embedding of `_dist_to_forced_for_color`'s outer loop over root fens
(lines 137-179), with the PV replay of `_collect_pv_fens` inlined per root
and `max_pv_plies = cap_moves * 2` (line 132). `bestPv` abstracts the
`best_pv_at_fen` map (`.get(fen) or []`). -/
def dist_to_forced_for_color (stepFn : String → String → Option String)
    (turnOf forcedOf : String → Bool) (bestPv : String → List String)
    (fens : List String) (color : Bool) (cap_moves : Nat) : List Nat :=
  fens.map fun fen =>
    dist_to_forced turnOf forcedOf
      (collect_pv_fens stepFn fen (bestPv fen) (cap_moves * 2)) color cap_moves

/-- Embedding of `chunked` (src/chester/chess_utils.py lines 66-67):
`[xs[i : i + n] for i in range(0, len(xs), n)]`. `List.range' 0 k n` is
Python's `range(0, len(xs), n)`: for `n ≥ 1` it has `⌈len/n⌉ =
(len + n - 1) / n` elements `0, n, 2n, …`, and `xs[i : i + n]` is
`(xs.drop i).take n`. -/
def chunked (xs : List String) (n : Nat) : List (List String) :=
  (List.range' 0 ((xs.length + n - 1) / n) n).map fun i => (xs.drop i).take n

/-- Recursive reformulation of `chunked` used in proofs. -/
def chunkedRec : Nat → List String → Nat → List (List String)
  | 0, _, _ => []
  | _, [], _ => []
  | fuel + 1, x :: xs, n => ((x :: xs).take n) :: chunkedRec fuel ((x :: xs).drop n) n

/-- Python `dict.update` on one key/value pair over an association list in
insertion order: overwrite the value in place when the key is present,
append otherwise. -/
def updOne (m : List (String × Int)) (kv : String × Int) : List (String × Int) :=
  if m.any (fun p => p.1 = kv.1) then
    m.map fun p => if p.1 = kv.1 then (p.1, kv.2) else p
  else m ++ [kv]

/-- Python `merged.update(new)`. -/
def dictUpdate (m new : List (String × Int)) : List (String × Int) :=
  new.foldl updOne m

/-- Embedding of the merge loop of `analyse_candidates_modal_batched`
(src/chester/modal_client.py lines 55-63): `merged = \x7b\x7d` then
`merged.update(t.get("candidates", \x7b\x7d))` for each batch result in turn. -/
def mergeBatchResults (batchResults : List (List (String × Int))) :
    List (String × Int) :=
  batchResults.foldl dictUpdate []

/-- An entry of one of the per-ply series arrays emitted by
`build_rhythm_data`: a number (Python floats/ints are modelled as rationals)
or Python `None`. -/
inductive SVal where
  | num (q : ℚ)
  | null
deriving DecidableEq, Repr

/-- Embedding of `_cp_to_pawns` (rhythm_pipeline.py lines 26-27), with the
float arithmetic modelled exactly over ℚ. -/
def cp_to_pawns (cp : Int) : ℚ := (cp : ℚ) / 100

/-- Embedding of `_cap` (rhythm_pipeline.py lines 30-35). -/
def capQ (x lo hi : ℚ) : ℚ :=
  if x < lo then lo
  else if x > hi then hi
  else x

/-- The per-ply inputs consumed by the series-assembly loop of
`build_rhythm_data` (lines 268-292): the side to move of the ply's fen
(`true` = `chess.WHITE`), `best_cp_by_fen[fen]`, and this ply's entries of
`dist_white` / `dist_black`. -/
structure PlyIn where
  turn : Bool
  cps : List Int
  distW : Nat
  distB : Nat

/-- Capped perplexity `min(int(_perplexity_segments(cps)), 6)` (line 278), as
a rational for the float-valued series entries. -/
def perpOf (p : PlyIn) : ℚ := ((min (perplexity_segments p.cps) 6 : Nat) : ℚ)

/-- The `eval_pawns` entry (lines 274-276): the cp at the deepest depth's index
(`depths.index(depth_max)`, passed in as `deepIdx`), converted to pawns and
clipped to [-6, 6]. -/
def plyEntryEval (deepIdx : Nat) (p : PlyIn) : SVal :=
  .num (capQ (cp_to_pawns (p.cps.getD deepIdx 0)) (-6) 6)

/-- The `perplexity_white` entry (lines 283-289): the capped perplexity when
White is to move, `None` otherwise. -/
def plyEntryPerpWhite (p : PlyIn) : SVal :=
  if p.turn then .num (perpOf p) else .null

/-- The `perplexity_black_mirrored` entry (lines 285-290): `None` when White is
to move, the negated capped perplexity otherwise. -/
def plyEntryPerpBlack (p : PlyIn) : SVal :=
  if p.turn then .null else .num (-(perpOf p))

/-- The `forced_dist_white` entry (lines 279, 286-291). -/
def plyEntryForcedWhite (p : PlyIn) : SVal :=
  if p.turn then .num ((min p.distW 6 : Nat) : ℚ) else .null

/-- The `forced_dist_black_mirrored` entry (lines 280, 287-292). -/
def plyEntryForcedBlack (p : PlyIn) : SVal :=
  if p.turn then .null else .num (-((min p.distB 6 : Nat) : ℚ))

/-- One entry of the time series (lines 297-301): pass the clock sample
through (negated for Black) or keep `None`. -/
def timeEntry (t : Option ℚ) (mirror : Bool) : SVal :=
  match t with
  | none => .null
  | some q => .num (if mirror then -q else q)

/-- Embedding of the `"series"` object returned by `build_rhythm_data`
(rhythm_pipeline.py lines 259-301 and 322-331), as an association list in
the source's insertion order. `plies` has one entry per fen
(`nplies + 1` of them); the clock lists may be shorter
(`w_clocks[i] if i < len(w_clocks) else None`). -/
def seriesObject (deepIdx : Nat) (plies : List PlyIn)
    (w_clocks b_clocks : List (Option ℚ)) : List (String × List SVal) :=
  [("ply", (List.range plies.length).map fun (i : Nat) => SVal.num (i : ℚ)),
   ("eval_pawns", plies.map (plyEntryEval deepIdx)),
   ("perplexity_white", plies.map plyEntryPerpWhite),
   ("perplexity_black_mirrored", plies.map plyEntryPerpBlack),
   ("forced_dist_white", plies.map plyEntryForcedWhite),
   ("forced_dist_black_mirrored", plies.map plyEntryForcedBlack),
   ("time_white_sec",
     (List.range plies.length).map fun i =>
       timeEntry ((w_clocks.get? i).getD none) false),
   ("time_black_sec_mirrored",
     (List.range plies.length).map fun i =>
       timeEntry ((b_clocks.get? i).getD none) true)]

/-!
### The bounded concurrent mapper (`async_map_progress`)

`async_map_progress` (src/chester/async_utils.py lines 13-43) creates one
asyncio task per item; each task body is `async with sem: return it, await
worker(it)` over `sem = asyncio.Semaphore(max(1, int(concurrency)))`, and
the function then consumes `asyncio.as_completed(tasks)`.

Task lifecycle: the model below is a small-step machine whose states hold
the tasks still waiting on the semaphore, the tasks currently holding a
semaphore slot (running `worker`), the finished tasks in completion order,
and the semaphore's free-slot count. The source has exactly two
scheduler-visible transitions per task — acquire the semaphore and start the
worker; finish the worker and release the slot (`async with` releases on
every exit path) — and no call to `Task.cancel()` anywhere, so the machine
has no cancellation transition.
-/

/-- A state of the task machine. -/
structure MState (ι : Type) where
  waiting : List ι
  running : List ι
  done : List ι
  sem : Nat
deriving DecidableEq, Repr

/-- The initial state: every item's task created and waiting, none running,
and the semaphore at `max(1, int(concurrency))` (async_utils.py line 25). -/
def initState {ι : Type} (items : List ι) (concurrency : Nat) : MState ι :=
  ⟨items, [], [], max 1 concurrency⟩

/-- The two transitions of the task machine (async_utils.py lines 27-29):
a waiting task acquires a free semaphore slot and starts its worker, or a
running task's worker returns (or raises) and the `async with` releases the
slot. There is no cancellation transition: the source never cancels a
task. -/
inductive MStep {ι : Type} : MState ι → MState ι → Prop
  | start (pre post r d : List ι) (k : ι) (s : Nat) :
      MStep ⟨pre ++ k :: post, r, d, s + 1⟩ ⟨pre ++ post, k :: r, d, s⟩
  | finish (w pre post d : List ι) (k : ι) (s : Nat) :
      MStep ⟨w, pre ++ k :: post, d, s⟩ ⟨w, pre ++ post, k :: d, s + 1⟩

/-- Reachability in the task machine. -/
inductive Reach {ι : Type} (σ : MState ι) : MState ι → Prop
  | refl : Reach σ σ
  | step {τ υ : MState ι} : Reach σ τ → MStep τ υ → Reach σ υ

/-- The consumption loop of `async_map_progress` (async_utils.py
lines 36-39) as a fold over the completion order that
`asyncio.as_completed` delivers: each completed task yields its key and
either the worker's value or its exception; an `ok` completion is written
into `out`, while the first `error` completion re-raises out of the loop,
abandoning `out` (only the progress bar is closed in `finally`). -/
def asyncMapGo {κ ε υ : Type} :
    List (κ × Except ε υ) → List (κ × υ) → Except ε (List (κ × υ))
  | [], out => .ok out
  | (k, .ok v) :: rest, out => asyncMapGo rest (out ++ [(k, v)])
  | (_, .error e) :: _, _ => .error e

/-- The value produced by `async_map_progress` as a function of the
completion order: the full key-to-result map when every worker succeeds,
or the first raised exception. -/
def async_map_progress_result {κ ε υ : Type}
    (completions : List (κ × Except ε υ)) : Except ε (List (κ × υ)) :=
  asyncMapGo completions []

/-! ### Proofs about the perplexity segmenter -/

/-- State-free form of the segment-counting loop, used to relate `segLoop`
and `runCount`. -/
def simpleSeg : List Int → Option Int → Nat
  | [], _ => 0
  | s :: rest, prev =>
    if s = 0 then simpleSeg rest prev
    else if prev = some s then simpleSeg rest prev
    else simpleSeg rest (some s) + 1

lemma segLoop_eq_simpleSeg (l : List Int) :
    ∀ (seg : Nat) (prev : Option Int), segLoop l seg prev = seg + simpleSeg l prev := by
  induction l with
  | nil => intro seg prev; simp [segLoop, simpleSeg]
  | cons s rest ih =>
    intro seg prev
    by_cases h0 : s = 0
    · simp [segLoop, simpleSeg, h0, ih]
    · by_cases hp : prev = some s
      · simp [segLoop, simpleSeg, h0, hp, ih]
      · simp [segLoop, simpleSeg, h0, hp, ih]
        omega

lemma runGo_eq_simpleSeg (l : List Int) :
    ∀ (p : Int) (acc : Nat),
      runCount.runGo (l.filter (· ≠ 0)) p acc = acc + simpleSeg l (some p) := by
  induction l with
  | nil => intro p acc; simp [runCount.runGo, simpleSeg]
  | cons s rest ih =>
    intro p acc
    by_cases h0 : s = 0
    · have hseg : simpleSeg (s :: rest) (some p) = simpleSeg rest (some p) := by
        simp [simpleSeg, h0]
      rw [List.filter_cons_of_neg (by simp [h0]), hseg, ih p acc]
    · by_cases hp : p = s
      · subst hp
        have hrun : runCount.runGo (p :: rest.filter (· ≠ 0)) p acc =
            runCount.runGo (rest.filter (· ≠ 0)) p acc := by
          simp [runCount.runGo]
        have hseg : simpleSeg (p :: rest) (some p) = simpleSeg rest (some p) := by
          simp [simpleSeg, h0]
        rw [List.filter_cons_of_pos (by simp [h0]), hrun, hseg, ih p acc]
      · have hsp : ¬ s = p := fun h => hp h.symm
        have hrun : runCount.runGo (s :: rest.filter (· ≠ 0)) p acc =
            runCount.runGo (rest.filter (· ≠ 0)) s (acc + 1) := by
          simp [runCount.runGo, hsp]
        have hseg : simpleSeg (s :: rest) (some p) = simpleSeg rest (some s) + 1 := by
          simp [simpleSeg, h0, show ¬(some p = some s) from by simpa using hp]
        rw [List.filter_cons_of_pos (by simp [h0]), hrun, hseg, ih s (acc + 1)]
        omega

lemma simpleSeg_none_eq_runCount (l : List Int) :
    simpleSeg l none = runCount (l.filter (· ≠ 0)) := by
  induction l with
  | nil => rfl
  | cons s rest ih =>
    by_cases h0 : s = 0
    · have hseg : simpleSeg (s :: rest) none = simpleSeg rest none := by
        simp [simpleSeg, h0]
      rw [hseg, ih, List.filter_cons_of_neg (by simp [h0])]
    · have hseg : simpleSeg (s :: rest) none = simpleSeg rest (some s) + 1 := by
        simp [simpleSeg, h0]
      rw [List.filter_cons_of_pos (by simp [h0]), hseg,
        show runCount (s :: rest.filter (· ≠ 0)) =
          runCount.runGo (rest.filter (· ≠ 0)) s 1 from rfl,
        runGo_eq_simpleSeg rest s 1]
      omega

lemma runGo_ge (l : List Int) : ∀ (p : Int) (acc : Nat), acc ≤ runCount.runGo l p acc := by
  induction l with
  | nil => intro p acc; simp [runCount.runGo]
  | cons b rest ih =>
    intro p acc
    by_cases h : b = p
    · simpa [runCount.runGo, h] using ih p acc
    · have := ih b (acc + 1)
      simp only [runCount.runGo, if_neg h]
      omega

lemma runCount_pos (l : List Int) (h : l ≠ []) : 1 ≤ runCount l := by
  cases l with
  | nil => exact absurd rfl h
  | cons a t => simpa [runCount] using runGo_ge t a 1

lemma filter_ne_nil_of_not_all_zero (l : List Int) (h : ¬ (l.all (· = 0) = true)) :
    l.filter (· ≠ 0) ≠ [] := by
  simp only [List.all_eq_true, decide_eq_true_eq] at h
  push_neg at h
  obtain ⟨x, hx, hx0⟩ := h
  intro hnil
  have hmem : x ∈ l.filter (· ≠ 0) := List.mem_filter.mpr ⟨hx, by simpa using hx0⟩
  rw [hnil] at hmem
  exact absurd hmem (List.not_mem_nil x)

/-- C1: `_perplexity_segments` computes the reference algorithm of §4.4 —
sign buckets, carry-forward over zeros, 1 on an all-zero carried sequence,
otherwise the uncapped number of maximal runs of equal non-zero bucket
value — and a series with buckets `[+,+,+,-,+]` yields 3. -/
theorem perplexity_segments_matches_spec :
    (∀ cps : List Int, perplexity_segments cps = perplexitySpecRef cps)
    ∧ perplexity_segments [10, 10, 10, -5, 5] = 3 := by
  constructor
  · intro cps
    simp only [perplexity_segments, perplexitySpecRef]
    by_cases hz : (carryGo (cps.map sign_bucket) 0).all (· = 0) = true
    · rw [if_pos hz, if_pos hz]
    · rw [if_neg hz, if_neg hz]
      rw [segLoop_eq_simpleSeg, simpleSeg_none_eq_runCount]
      have h1 : 1 ≤ runCount ((carryGo (cps.map sign_bucket) 0).filter (· ≠ 0)) :=
        runCount_pos _ (filter_ne_nil_of_not_all_zero _ hz)
      omega
  · rfl

/-! ### Proofs about the forced-position classifier -/

/-- C3 counterexample: a gap of exactly 100 centipawns (top moves scored
+100 and 0) is classified forced by the source (`>= 100`), though it does
not strictly exceed the threshold of 100 as the claim states. -/
theorem is_forced_threshold_counterexample :
    is_forced_from_topmoves
        [some ⟨some ("cp"), none, some 100⟩, some ⟨some ("cp"), none, some 0⟩] = true
    ∧ ¬(100 < (score_to_cp (some ⟨some ("cp"), none, some 100⟩) -
               score_to_cp (some ⟨some ("cp"), none, some 0⟩)).natAbs) := by
  constructor
  · rfl
  · decide

/-- C3 (amended): `_is_forced_from_topmoves` classifies a position as forced
exactly when there are at least two ranked moves and the absolute gap
between the top two scores — converted via `_score_to_cp`, with mate mapped
to the ±100000 sentinel — is at least (not strictly above) the threshold
100; with fewer than two ranked moves it is never forced. -/
theorem is_forced_from_topmoves_iff (tm : List (Option ScoreRec)) :
    is_forced_from_topmoves tm = true ↔
      2 ≤ tm.length ∧
      100 ≤ (score_to_cp ((tm.get? 0).getD none) -
             score_to_cp ((tm.get? 1).getD none)).natAbs := by
  unfold is_forced_from_topmoves
  by_cases h : tm = [] ∨ tm.length < 2
  · have hlt : tm.length < 2 := by
      rcases h with h | h
      · simp [h]
      · exact h
    simp [h]
    omega
  · push_neg at h
    simp [h.1, h.2, Nat.not_lt.mp (by omega : ¬ tm.length < 2)]

/-- Witness for `is_forced_from_topmoves_iff`: a 300-vs-0 centipawn gap is
classified forced. -/
theorem is_forced_from_topmoves_iff_witness :
    is_forced_from_topmoves
      [some ⟨some ("cp"), none, some 300⟩, some ⟨some ("cp"), none, some 0⟩] = true :=
  (is_forced_from_topmoves_iff
    [some ⟨some ("cp"), none, some 300⟩, some ⟨some ("cp"), none, some 0⟩]).mpr
    ⟨by decide, by decide⟩

/-! ### Proofs about `_score_to_cp` edge cases -/

/-- C10: `_score_to_cp` on the edge cases: 0 for an empty/absent record and
for a cp record with a missing-or-None cp field; the positive sentinel
+100000 for a mate record with mate count 0; +100000 for positive mate
counts and -100000 for negative ones. -/
theorem score_to_cp_edge_cases :
    score_to_cp none = 0
    ∧ (∀ mt : Option Int, score_to_cp (some ⟨some ("cp"), mt, none⟩) = 0)
    ∧ (∀ c : Option Int, score_to_cp (some ⟨some ("mate"), some 0, c⟩) = MATE_CP)
    ∧ (∀ (m : Int) (c : Option Int), 0 < m →
        score_to_cp (some ⟨some ("mate"), some m, c⟩) = MATE_CP)
    ∧ (∀ (m : Int) (c : Option Int), m < 0 →
        score_to_cp (some ⟨some ("mate"), some m, c⟩) = -MATE_CP) := by
  refine ⟨rfl, fun mt => rfl, fun c => rfl, ?_, ?_⟩
  · intro m c hm
    have hred : score_to_cp (some ⟨some ("mate"), some m, c⟩) =
        if m = 0 then MATE_CP else if m > 0 then MATE_CP else -MATE_CP := by
      simp [score_to_cp]
    rw [hred, if_neg (by omega), if_pos (by omega)]
  · intro m c hm
    have hred : score_to_cp (some ⟨some ("mate"), some m, c⟩) =
        if m = 0 then MATE_CP else if m > 0 then MATE_CP else -MATE_CP := by
      simp [score_to_cp]
    rw [hred, if_neg (by omega), if_neg (by omega)]

/-- Witness for `score_to_cp_edge_cases` at mate counts +3 and -3. -/
theorem score_to_cp_edge_cases_witness :
    score_to_cp (some ⟨some ("mate"), some 3, none⟩) = MATE_CP
    ∧ score_to_cp (some ⟨some ("mate"), some (-3), none⟩) = -MATE_CP :=
  ⟨score_to_cp_edge_cases.2.2.2.1 3 none (by decide),
   score_to_cp_edge_cases.2.2.2.2 (-3) none (by decide)⟩

/-! ### Proofs about the forced-frontier walker -/

lemma walkGo_some_le (turnOf forcedOf : String → Bool) (color : Bool) :
    ∀ (l : List String) (m cap k : Nat), m ≤ cap →
      walkGo turnOf forcedOf color l m cap = some k → k ≤ cap := by
  intro l
  induction l with
  | nil => intro m cap k _ h; simp [walkGo] at h
  | cons pf rest ih =>
    intro m cap k hm h
    simp only [walkGo] at h
    by_cases ht : turnOf pf = color
    · rw [if_pos ht] at h
      by_cases hf : forcedOf pf = true
      · rw [if_pos hf] at h
        obtain rfl : m = k := by simpa using h
        exact hm
      · rw [if_neg hf] at h
        by_cases hc : m + 1 > cap
        · rw [if_pos hc] at h; cases h
        · rw [if_neg hc] at h
          exact ih (m + 1) cap k (by omega) h
    · rw [if_neg ht] at h
      exact ih m cap k hm h

lemma walkGo_cap_of_not_forced (turnOf forcedOf : String → Bool) (color : Bool) :
    ∀ (l : List String) (m cap : Nat), m ≤ cap →
      (∀ f ∈ (l.filter fun f => turnOf f = color).take (cap - m), forcedOf f = false) →
      (walkGo turnOf forcedOf color l m cap).getD cap = cap := by
  intro l
  induction l with
  | nil => intro m cap _ _; simp [walkGo]
  | cons pf rest ih =>
    intro m cap hm hyp
    by_cases ht : turnOf pf = color
    · by_cases hf : forcedOf pf = true
      · by_cases hm' : m = cap
        · subst hm'
          simp [walkGo, ht, hf]
        · obtain ⟨j, hj⟩ : ∃ j, cap - m = j + 1 := ⟨cap - m - 1, by omega⟩
          have hpf : pf ∈ ((pf :: rest).filter fun f => turnOf f = color).take (cap - m) := by
            rw [List.filter_cons_of_pos (by simp [ht]), hj, List.take_succ_cons]
            exact List.mem_cons_self _ _
          have := hyp pf hpf
          simp [hf] at this
      · by_cases hc : m + 1 > cap
        · simp [walkGo, ht, hf, hc]
        · simp only [walkGo, if_pos ht, if_neg hf, if_neg hc]
          apply ih (m + 1) cap (by omega)
          intro f hfmem
          apply hyp f
          obtain ⟨j, hj⟩ : ∃ j, cap - m = j + 1 := ⟨cap - m - 1, by omega⟩
          rw [List.filter_cons_of_pos (by simp [ht]), hj, List.take_succ_cons]
          refine List.mem_cons_of_mem _ ?_
          have hjj : cap - (m + 1) = j := by omega
          rw [hjj] at hfmem
          exact hfmem
    · simp only [walkGo, if_neg ht]
      apply ih m cap hm
      rw [List.filter_cons_of_neg (by simp [ht])] at hyp
      exact hyp

/-- C2: with the cap fixed at 6 (`cap_moves = 6` at both call sites), the
per-root walk of `_dist_to_forced_for_color` returns exactly 6 whenever none
of the first 6 visited PV positions with `color` to move is classified
forced — which covers an exhausted PV and a PV truncated by
`_collect_pv_fens` at an unparseable or illegal move, since the visited list
is then simply shorter — and the distance is always in 0..6, both per root
and across the whole returned list. -/
theorem dist_to_forced_cap_and_range :
    (∀ (turnOf forcedOf : String → Bool) (pv_fens : List String) (color : Bool),
       (∀ f ∈ (pv_fens.filter fun f => turnOf f = color).take 6, forcedOf f = false) →
       dist_to_forced turnOf forcedOf pv_fens color 6 = 6)
    ∧ (∀ (turnOf forcedOf : String → Bool) (pv_fens : List String) (color : Bool),
        dist_to_forced turnOf forcedOf pv_fens color 6 ≤ 6)
    ∧ (∀ (stepFn : String → String → Option String) (turnOf forcedOf : String → Bool)
        (bestPv : String → List String) (fens : List String) (color : Bool) (d : Nat),
        d ∈ dist_to_forced_for_color stepFn turnOf forcedOf bestPv fens color 6 →
        d ≤ 6) := by
  have hle : ∀ (turnOf forcedOf : String → Bool) (pv_fens : List String) (color : Bool),
      dist_to_forced turnOf forcedOf pv_fens color 6 ≤ 6 := by
    intro turnOf forcedOf pv_fens color
    unfold dist_to_forced
    cases h : walkGo turnOf forcedOf color pv_fens 0 6 with
    | none => simp
    | some k =>
      simpa using walkGo_some_le turnOf forcedOf color pv_fens 0 6 k (by omega) h
  refine ⟨?_, hle, ?_⟩
  · intro turnOf forcedOf pv_fens color hyp
    unfold dist_to_forced
    have := walkGo_cap_of_not_forced turnOf forcedOf color pv_fens 0 6 (by omega)
      (by simpa using hyp)
    exact this
  · intro stepFn turnOf forcedOf bestPv fens color d hd
    simp only [dist_to_forced_for_color, List.mem_map] at hd
    obtain ⟨fen, _, rfl⟩ := hd
    exact hle _ _ _ _

/-- Witness for `dist_to_forced_cap_and_range`: a single-position PV where
the target side is to move but nothing is forced yields the cap 6. -/
theorem dist_to_forced_cap_witness :
    dist_to_forced (fun _ => true) (fun _ => false) ["start"] true 6 = 6 :=
  dist_to_forced_cap_and_range.1 _ _ _ _ (by intro f _; rfl)

/-- C8: when the root position itself has the target side to move and is
classified forced, the walk of `_dist_to_forced_for_color` over the PV
positions collected by `_collect_pv_fens` (whose first element is the root)
returns 0: zero of that side's moves are consumed. -/
theorem dist_to_forced_zero_at_forced_root
    (stepFn : String → String → Option String) (turnOf forcedOf : String → Bool)
    (root : String) (pv : List String) (color : Bool)
    (hturn : turnOf root = color) (hforced : forcedOf root = true) :
    dist_to_forced turnOf forcedOf (collect_pv_fens stepFn root pv (6 * 2)) color 6 = 0 := by
  simp [dist_to_forced, collect_pv_fens, walkGo, hturn, hforced]

/-- Witness for `dist_to_forced_zero_at_forced_root` on a concrete forced
root with an empty PV. -/
theorem dist_to_forced_zero_witness :
    dist_to_forced (fun _ => true) (fun _ => true)
      (collect_pv_fens (fun _ _ => none) ("root") [] (6 * 2)) true 6 = 0 :=
  dist_to_forced_zero_at_forced_root (fun _ _ => none) (fun _ => true) (fun _ => true)
    ("root") [] true rfl rfl

/-! ### Proofs about the request batcher (`chunked`) -/

lemma range'_shift (n : Nat) : ∀ (K s : Nat),
    List.range' (s + n) K n = (List.range' s K n).map (· + n) := by
  intro K
  induction K with
  | zero => intro s; rfl
  | succ K ih =>
    intro s
    rw [List.range'_succ, List.range'_succ, List.map_cons, ih (s + n)]

lemma ceil_div_shift (len n : Nat) (hn : 1 ≤ n) (hl : 1 ≤ len) :
    (len + n - 1) / n = (len - n + n - 1) / n + 1 := by
  rcases le_or_lt len n with h | h
  · have h1 : len - n = 0 := by omega
    have h3 : (len + n - 1) / n = 1 := by
      have he : len + n - 1 = (len - 1) + n := by omega
      rw [he, Nat.add_div_right _ (by omega), Nat.div_eq_of_lt (by omega)]
    rw [h1, h3, Nat.zero_add, Nat.div_eq_of_lt (by omega)]
  · have h2 : len - n + n - 1 = len - n - 1 + n := by omega
    rw [h2, Nat.add_div_right _ (by omega)]
    have h3 : len + n - 1 = (len - 1) + n := by omega
    rw [h3, Nat.add_div_right _ (by omega)]
    have h4 : len - 1 = (len - n - 1) + n := by omega
    rw [h4, Nat.add_div_right _ (by omega)]

lemma chunked_nil (n : Nat) (hn : 1 ≤ n) : chunked [] n = [] := by
  have h0 : (n - 1) / n = 0 := Nat.div_eq_of_lt (by omega)
  simp [chunked, h0]

lemma chunkedRec_nil (fuel n : Nat) : chunkedRec fuel [] n = [] := by
  cases fuel <;> rfl

lemma chunked_cons (x : String) (rest : List String) (n : Nat) (hn : 1 ≤ n) :
    chunked (x :: rest) n = (x :: rest).take n :: chunked ((x :: rest).drop n) n := by
  unfold chunked
  rw [List.length_drop]
  rw [ceil_div_shift (x :: rest).length n hn (by simp)]
  rw [List.range'_succ, List.map_cons]
  congr 1
  rw [range'_shift, List.map_map]
  apply List.map_congr_left
  intro i _
  simp [List.drop_drop, Nat.add_comm]

lemma drop_length_le (x : String) (rest : List String) (n fuel : Nat)
    (hn : 1 ≤ n) (hf : (x :: rest).length ≤ fuel + 1) :
    ((x :: rest).drop n).length ≤ fuel := by
  rw [List.length_drop]
  simp only [List.length_cons] at hf ⊢
  omega

lemma chunked_eq_chunkedRec : ∀ (fuel : Nat) (xs : List String) (n : Nat),
    1 ≤ n → xs.length ≤ fuel → chunked xs n = chunkedRec fuel xs n := by
  intro fuel
  induction fuel with
  | zero =>
    intro xs n hn hf
    have hx : xs = [] := List.length_eq_zero.mp (by omega)
    subst hx
    rw [chunked_nil n hn, chunkedRec_nil]
  | succ fuel ih =>
    intro xs n hn hf
    cases xs with
    | nil => rw [chunked_nil n hn, chunkedRec_nil]
    | cons x rest =>
      rw [chunkedRec, chunked_cons x rest n hn,
        ih ((x :: rest).drop n) n hn (drop_length_le x rest n fuel hn hf)]

lemma chunkedRec_flatten : ∀ (fuel : Nat) (xs : List String) (n : Nat),
    1 ≤ n → xs.length ≤ fuel → (chunkedRec fuel xs n).flatten = xs := by
  intro fuel
  induction fuel with
  | zero =>
    intro xs n hn hf
    have hx : xs = [] := List.length_eq_zero.mp (by omega)
    subst hx
    rfl
  | succ fuel ih =>
    intro xs n hn hf
    cases xs with
    | nil => rfl
    | cons x rest =>
      rw [chunkedRec, List.flatten_cons,
        ih ((x :: rest).drop n) n hn (drop_length_le x rest n fuel hn hf),
        List.take_append_drop]

lemma chunkedRec_length : ∀ (fuel : Nat) (xs : List String) (n : Nat),
    1 ≤ n → xs.length ≤ fuel →
    (chunkedRec fuel xs n).length = (xs.length + n - 1) / n := by
  intro fuel
  induction fuel with
  | zero =>
    intro xs n hn hf
    have hx : xs = [] := List.length_eq_zero.mp (by omega)
    subst hx
    rw [chunkedRec_nil]
    simp only [List.length_nil, Nat.zero_add]
    exact (Nat.div_eq_of_lt (by omega)).symm
  | succ fuel ih =>
    intro xs n hn hf
    cases xs with
    | nil =>
      rw [chunkedRec_nil]
      simp only [List.length_nil, Nat.zero_add]
      exact (Nat.div_eq_of_lt (by omega)).symm
    | cons x rest =>
      rw [chunkedRec, List.length_cons,
        ih ((x :: rest).drop n) n hn (drop_length_le x rest n fuel hn hf),
        List.length_drop, ceil_div_shift ((x :: rest).length) n hn (by simp)]

lemma chunkedRec_mem : ∀ (fuel : Nat) (xs : List String) (n : Nat) (b : List String),
    1 ≤ n → b ∈ chunkedRec fuel xs n → 1 ≤ b.length ∧ b.length ≤ n := by
  intro fuel
  induction fuel with
  | zero => intro xs n b _ hb; simp [chunkedRec] at hb
  | succ fuel ih =>
    intro xs n b hn hb
    cases xs with
    | nil => simp [chunkedRec_nil] at hb
    | cons x rest =>
      rw [chunkedRec] at hb
      rcases List.mem_cons.mp hb with hb | hb
      · subst hb
        rw [List.length_take]
        simp only [List.length_cons]
        omega
      · exact ih _ n b hn hb

lemma chunkedRec_not_last : ∀ (fuel : Nat) (xs : List String) (n i : Nat),
    1 ≤ n → xs.length ≤ fuel → i + 1 < (chunkedRec fuel xs n).length →
    ((chunkedRec fuel xs n).getD i []).length = n := by
  intro fuel
  induction fuel with
  | zero => intro xs n i hn hf hi; simp [chunkedRec] at hi
  | succ fuel ih =>
    intro xs n i hn hf hi
    cases xs with
    | nil => simp [chunkedRec_nil] at hi
    | cons x rest =>
      rw [chunkedRec] at hi ⊢
      cases i with
      | zero =>
        have hrest : chunkedRec fuel ((x :: rest).drop n) n ≠ [] := by
          intro hc
          rw [List.length_cons, hc] at hi
          simp at hi
        have hdrop : (x :: rest).drop n ≠ [] := by
          intro hc
          rw [hc, chunkedRec_nil] at hrest
          exact hrest rfl
        have hlen : n < (x :: rest).length := by
          by_contra hcon
          exact hdrop (List.drop_eq_nil_of_le (by omega))
        rw [List.getD_cons_zero, List.length_take]
        simp only [List.length_cons] at hlen ⊢
        omega
      | succ j =>
        rw [List.getD_cons_succ]
        have hj : j + 1 < (chunkedRec fuel ((x :: rest).drop n) n).length := by
          rw [List.length_cons] at hi
          omega
        exact ih ((x :: rest).drop n) n j hn (drop_length_le x rest n fuel hn hf) hj

/-- C6: `chunked` partitions its input into `⌈M/B⌉` batches — the count is
`(M + B - 1) / B`, pinned to the ceiling by the two surrounding
inequalities — whose concatenation is the input in order, every batch
non-empty and of size at most `B`, every batch before the last of size
exactly `B`; and `M = 10, B = 3` gives batch sizes `[3, 3, 3, 1]`. -/
theorem chunked_partition (xs : List String) (n : Nat) (hn : 1 ≤ n) :
    (chunked xs n).flatten = xs
    ∧ (chunked xs n).length = (xs.length + n - 1) / n
    ∧ xs.length ≤ n * (chunked xs n).length
    ∧ n * (chunked xs n).length < xs.length + n
    ∧ (∀ b ∈ chunked xs n, 1 ≤ b.length ∧ b.length ≤ n)
    ∧ (∀ i, i + 1 < (chunked xs n).length → ((chunked xs n).getD i []).length = n)
    ∧ (chunked ["a", "b", "c", "d", "e", "f", "g", "h", "i", "j"] 3).map List.length
        = [3, 3, 3, 1] := by
  have heq := chunked_eq_chunkedRec xs.length xs n hn (le_refl _)
  have hlen : (chunked xs n).length = (xs.length + n - 1) / n := by
    rw [heq]; exact chunkedRec_length xs.length xs n hn (le_refl _)
  refine ⟨?_, hlen, ?_, ?_, ?_, ?_, ?_⟩
  · rw [heq]; exact chunkedRec_flatten xs.length xs n hn (le_refl _)
  · rw [hlen]
    have hdm := Nat.div_add_mod (xs.length + n - 1) n
    have hmod := Nat.mod_lt (xs.length + n - 1) (show 0 < n by omega)
    omega
  · rw [hlen]
    have hdm := Nat.div_add_mod (xs.length + n - 1) n
    have hmod := Nat.mod_lt (xs.length + n - 1) (show 0 < n by omega)
    omega
  · rw [heq]; exact fun b hb => chunkedRec_mem xs.length xs n b hn hb
  · rw [heq]; exact fun i hi => chunkedRec_not_last xs.length xs n i hn (le_refl _) hi
  · rfl

/-- Witness for `chunked_partition`: 5 items in batches of 2 concatenate
back to the input. -/
theorem chunked_partition_witness :
    (chunked ["a", "b", "c", "d", "e"] 2).flatten = ["a", "b", "c", "d", "e"] :=
  (chunked_partition ["a", "b", "c", "d", "e"] 2 (by omega)).1

/-! ### Proofs about the batch-result merge -/

/-- C7 counterexample: two batches that both carry the key `"e2e4"` are
merged by `merged.update(...)` into the second batch's entry — the first
batch's value 1 is silently replaced by 2 and no error is surfaced. -/
theorem merge_overwrite_counterexample :
    mergeBatchResults [[("e2e4", 1)], [("e2e4", 2)]] = [("e2e4", 2)]
    ∧ (mergeBatchResults [[("e2e4", 1)], [("e2e4", 2)]]).lookup ("e2e4") = some 2 := by
  constructor <;> rfl

/-- C7 (amended): the merge of `analyse_candidates_modal_batched` resolves
overlapping keys by last-writer-wins — a key present in a later batch
silently overwrites the earlier batch's entry in place, other entries
untouched — rather than surfacing the overlap. -/
theorem merge_last_writer_wins (k k' : String) (v₁ v₂ w : Int) (hk : k' ≠ k) :
    mergeBatchResults [[(k', w), (k, v₁)], [(k, v₂)]] = [(k', w), (k, v₂)] := by
  simp [mergeBatchResults, dictUpdate, updOne, hk]

/-- Witness for `merge_last_writer_wins` on concrete keys and values. -/
theorem merge_last_writer_wins_witness :
    mergeBatchResults [[("d2d4", 3), ("e2e4", 1)], [("e2e4", 2)]]
      = [("d2d4", 3), ("e2e4", 2)] :=
  merge_last_writer_wins ("e2e4") ("d2d4") 1 2 3 (by decide)

/-! ### Proofs about the emitted series schema -/

/-- C5 counterexample: the `"series"` object of `build_rhythm_data` has no
`perplexity_signed`, `forced_dist_signed` or `time_black_sec_signed` key —
it carries split per-side arrays (`perplexity_white`,
`perplexity_black_mirrored`, …) instead, here evaluated on a one-ply
game. -/
theorem series_schema_counterexample :
    "perplexity_signed" ∉ (seriesObject 0 [⟨true, [50], 0, 0⟩] [] []).map Prod.fst
    ∧ "forced_dist_signed" ∉ (seriesObject 0 [⟨true, [50], 0, 0⟩] [] []).map Prod.fst
    ∧ "time_black_sec_signed" ∉ (seriesObject 0 [⟨true, [50], 0, 0⟩] [] []).map Prod.fst
    ∧ "perplexity_white" ∈ (seriesObject 0 [⟨true, [50], 0, 0⟩] [] []).map Prod.fst
    ∧ "perplexity_black_mirrored" ∈ (seriesObject 0 [⟨true, [50], 0, 0⟩] [] []).map Prod.fst := by
  refine ⟨?_, ?_, ?_, ?_, ?_⟩ <;> simp [seriesObject]

/-- C5 (amended): the series object emitted by `build_rhythm_data` carries
the per-side split arrays under exactly the keys `ply`, `eval_pawns`,
`perplexity_white`, `perplexity_black_mirrored`, `forced_dist_white`,
`forced_dist_black_mirrored`, `time_white_sec`, `time_black_sec_mirrored`,
and all eight arrays are aligned with one entry per ply position
(`nplies + 1` entries). -/
theorem series_schema_split_arrays (deepIdx : Nat) (plies : List PlyIn)
    (w_clocks b_clocks : List (Option ℚ)) :
    (seriesObject deepIdx plies w_clocks b_clocks).map Prod.fst =
      ["ply", "eval_pawns", "perplexity_white", "perplexity_black_mirrored",
       "forced_dist_white", "forced_dist_black_mirrored",
       "time_white_sec", "time_black_sec_mirrored"]
    ∧ (∀ kv ∈ seriesObject deepIdx plies w_clocks b_clocks,
        kv.2.length = plies.length) := by
  constructor
  · rfl
  · intro kv hkv
    simp only [seriesObject, List.mem_cons, List.not_mem_nil, or_false] at hkv
    rcases hkv with rfl | rfl | rfl | rfl | rfl | rfl | rfl | rfl <;> simp

/-- Witness for `series_schema_split_arrays` on a concrete one-ply input. -/
theorem series_schema_split_arrays_witness :
    (seriesObject 0 [⟨true, [50], 1, 2⟩] [some 60] []).map Prod.fst =
      ["ply", "eval_pawns", "perplexity_white", "perplexity_black_mirrored",
       "forced_dist_white", "forced_dist_black_mirrored",
       "time_white_sec", "time_black_sec_mirrored"] :=
  (series_schema_split_arrays 0 [⟨true, [50], 1, 2⟩] [some 60] []).1

/-! ### Proofs about the bounded concurrent mapper -/

lemma reach_running_sem {ι : Type} (items : List ι) (N : Nat) :
    ∀ st, Reach (initState items N) st → st.running.length + st.sem = max 1 N := by
  intro st h
  induction h with
  | refl => simp [initState]
  | step hr hs ih =>
    cases hs with
    | start pre post r d k s =>
      simp only [List.length_cons] at ih ⊢
      omega
    | finish w pre post d k s =>
      simp only [List.length_append, List.length_cons] at ih ⊢
      omega

lemma perm_chunk_swap {ι : Type} (A B r : List ι) (k : ι) :
    ((A ++ B) ++ (k :: r)).Perm ((A ++ k :: B) ++ r) := by
  have h1 : ((A ++ B) ++ (k :: r)).Perm (k :: ((A ++ B) ++ r)) :=
    @List.perm_middle _ k (A ++ B) r
  have h2 : ((A ++ k :: B) ++ r).Perm (k :: ((A ++ B) ++ r)) := by
    have h3 := @List.perm_middle _ k A (B ++ r)
    simp only [List.append_assoc] at h3 ⊢
    exact h3
  exact h1.trans h2.symm

lemma reach_conservation {ι : Type} (items : List ι) (N : Nat) :
    ∀ st, Reach (initState items N) st →
      (st.waiting ++ st.running ++ st.done).Perm items := by
  intro st h
  induction h with
  | refl =>
    simp only [initState, List.append_nil]
    exact List.Perm.refl _
  | step hr hs ih =>
    refine List.Perm.trans ?_ ih
    cases hs with
    | start pre post r d k s =>
      exact (perm_chunk_swap pre post r k).append_right d
    | finish w pre post d k s =>
      have h := (perm_chunk_swap (w ++ pre) post d k)
      simp only [List.append_assoc] at h ⊢
      exact h

/-- C9: in the task machine of `async_map_progress`, every state reachable
from the initial state has at most `N` workers running concurrently (the
semaphore is created at `max(1, N)`, which is `N` for `N ≥ 1`), and when
the machine has drained (nothing waiting or running) the completed tasks
are exactly the input items — the worker ran for every item. -/
theorem async_map_concurrency_bound {ι : Type} (items : List ι) (N : Nat)
    (hN : 1 ≤ N) (st : MState ι) (h : Reach (initState items N) st) :
    st.running.length ≤ N
    ∧ (st.waiting = [] → st.running = [] → st.done.Perm items) := by
  constructor
  · have hsum := reach_running_sem items N st h
    have hmax : max 1 N = N := Nat.max_eq_right hN
    omega
  · intro hw hr
    have hp := reach_conservation items N st h
    rw [hw, hr] at hp
    simpa using hp

/-- Witness for `async_map_concurrency_bound`: two items under concurrency
limit 1, run to completion through an explicit four-step trace. -/
theorem async_map_concurrency_bound_witness :
    (⟨[], [], [1, 0], 1⟩ : MState Nat).running.length ≤ 1
    ∧ ((⟨[], [], [1, 0], 1⟩ : MState Nat).waiting = [] →
       (⟨[], [], [1, 0], 1⟩ : MState Nat).running = [] →
       (⟨[], [], [1, 0], 1⟩ : MState Nat).done.Perm [0, 1]) :=
  async_map_concurrency_bound [0, 1] 1 (by omega) ⟨[], [], [1, 0], 1⟩
    (Reach.step
      (Reach.step
        (Reach.step
          (Reach.step Reach.refl (MStep.start [] [1] [] [] 0 0))
          (MStep.finish [1] [] [] [] 0 0))
        (MStep.start [] [] [] [0] 1 0))
      (MStep.finish [] [] [] [0] 1 0))

lemma asyncMapGo_error {κ ε υ : Type} :
    ∀ (completions : List (κ × Except ε υ)) (acc : List (κ × υ)),
      (∃ p ∈ completions, ∃ e, p.2 = Except.error e) →
      ∃ e, asyncMapGo completions acc = Except.error e := by
  intro completions
  induction completions with
  | nil => intro acc h; simp at h
  | cons hd tl ih =>
    intro acc h
    obtain ⟨k, res⟩ := hd
    cases res with
    | error e => exact ⟨e, rfl⟩
    | ok v =>
      obtain ⟨p, hp, e, he⟩ := h
      rcases List.mem_cons.mp hp with rfl | hp
      · cases he
      · exact ih (acc ++ [(k, v)]) ⟨p, hp, e, he⟩

/-- C4 counterexample: the mapper does not cancel siblings on first failure.
With tasks `"a"` (whose worker raises `"boom"`) and `"b"`: once `"a"`
completes, the consumption loop propagates the error — the call's result is
the exception, not a mapping — yet from that very state (`"b"` still
pending, `"a"` done) the machine, which has no cancellation transition
because the source never calls `Task.cancel()`, still runs `"b"` to
completion. -/
theorem async_map_no_cancellation_counterexample :
    async_map_progress_result [(("a" : String), (Except.error ("boom") : Except String Int))]
      = Except.error ("boom")
    ∧ Reach (⟨["b"], [], ["a"], 1⟩ : MState String) ⟨[], [], ["b", "a"], 1⟩
    ∧ (⟨[], [], ["b", "a"], 1⟩ : MState String).done = ["b", "a"] := by
  refine ⟨rfl, ?_, rfl⟩
  exact Reach.step
    (Reach.step Reach.refl (MStep.start [] [] [] ["a"] ("b") 0))
    (MStep.finish [] [] [] ["a"] ("b") 0)

/-- C4 (amended): in fail-fast mode, if any completion carries a raised
exception the whole call fails with a propagated exception and returns no
(partial) result mapping; but pending and in-flight siblings are not
cancelled — from any state in which a failed task has completed and a
sibling is still waiting, the sibling can still run to completion. -/
theorem async_map_fail_fast_no_cancel :
    (∀ (κ ε υ : Type) (completions : List (κ × Except ε υ)),
       (∃ p ∈ completions, ∃ e, p.2 = Except.error e) →
       ∃ e, async_map_progress_result completions = Except.error e)
    ∧ (∀ (ι : Type) (t1 t2 : ι) (s : Nat),
        Reach (⟨[t2], [], [t1], s + 1⟩ : MState ι) ⟨[], [], [t2, t1], s + 1⟩) := by
  constructor
  · intro κ ε υ completions h
    exact asyncMapGo_error completions [] h
  · intro ι t1 t2 s
    exact Reach.step
      (Reach.step Reach.refl (MStep.start [] [] [] [t1] t2 s))
      (MStep.finish [] [] [] [t1] t2 s)

/-- Witness for `async_map_fail_fast_no_cancel`: a two-completion run whose
second completion raises produces an error result. -/
theorem async_map_fail_fast_witness :
    ∃ e, async_map_progress_result
        [(("k1" : String), (Except.ok 5 : Except String Int)),
         ("k2", Except.error ("boom"))] = Except.error e :=
  async_map_fail_fast_no_cancel.1 String String Int
    [("k1", Except.ok 5), ("k2", Except.error ("boom"))]
    ⟨("k2", Except.error ("boom")), by simp, "boom", rfl⟩

end Chesster
